import Mathlib

/-!
Verification of the segment utilities and batch-job management layer of
ML4GW/pyomicron against its natural-language specification.

The first part embeds `omicron/segments.py`: the `integer_segments`
decorator, `write_segments`, and the `omicron_output_segments` tiling
algorithm.  Python numbers are modelled as rationals (the only non-integer
arithmetic is `overlap / 2.`), Python `int()` truncation toward zero is
`truncQ`, and the `while` loops are modelled with explicit fuel returning
`Option` (`none` = fuel exhausted, i.e. the loop did not terminate within
the allotted iterations).
-/

/-- Python `int(q)`: truncation toward zero. -/
def truncQ (q : ℚ) : ℤ := if 0 ≤ q then ⌊q⌋ else ⌈q⌉

/-- The `glue.segments.segment` constructor: orders its two endpoints. -/
def glueSegment (a b : ℚ) : ℚ × ℚ := if a ≤ b then (a, b) else (b, a)

/-- The `glue.segments.segment` constructor over integers (the decorator
rebuilds segments with `type(s)(int(s[0]), int(s[1]))`). -/
def glueSegmentZ (a b : ℤ) : ℤ × ℤ := if a ≤ b then (a, b) else (b, a)

/-- `abs(seg)` for a glue segment: its length `seg[1] - seg[0]`. -/
def segAbs (s : ℚ × ℚ) : ℚ := s.2 - s.1

/-- The `integer_segments` decorator body applied to a produced list:
`type(segs)(type(s)(int(s[0]), int(s[1])) for s in segs)`. -/
def integer_segments (segs : List (ℚ × ℚ)) : List (ℤ × ℤ) :=
  segs.map (fun s => glueSegmentZ (truncQ s.1) (truncQ s.2))

/-- The `integer_segments` decorator itself, wrapping an arbitrary
interval-producing computation. -/
def integer_segments_wrap {α : Type} (f : α → List (ℚ × ℚ)) (x : α) : List (ℤ × ℤ) :=
  integer_segments (f x)

/-- The endpoint pairs written by `write_segments`: each segment is printed
with `print('%d %d' % seg)`, and the `%d` conversion truncates a fractional
value toward zero. -/
def written_endpoints (segmentlist : List (ℚ × ℚ)) : List (ℚ × ℚ) :=
  segmentlist.map (fun seg => ((truncQ seg.1 : ℚ), (truncQ seg.2 : ℚ)))

/-- `write_segments`: the lines written to the output file, one
`"<start> <end>"` line per segment, endpoints rendered by `%d`. -/
def write_segments (segmentlist : List (ℚ × ℚ)) : List String :=
  segmentlist.map (fun seg => toString (truncQ seg.1) ++ " " ++ toString (truncQ seg.2))

/-- The inner `while t < e` loop of `omicron_output_segments`:
`seg = Segment(t, min(t + fseg, fend)); out.append(seg); t += fseg`.
Fuel-indexed; `none` means the fuel ran out with the loop still running. -/
def innerLoopO (fend fseg e : ℚ) : ℕ → ℚ → Option (List (ℚ × ℚ))
  | 0, t => if t < e then none else some []
  | fuel + 1, t =>
    if t < e then
      (innerLoopO fend fseg e fuel (t + fseg)).map
        (fun rest => glueSegment t (min (t + fseg) fend) :: rest)
    else some []

/-- The outer `while t < fend` loop of `omicron_output_segments`:
computes `e = min(t + fdur, fend)`, subdivides when
`fseg < abs(seg) < fdur`, otherwise appends `seg`, then advances `t = e`. -/
def outerLoopO (fend fdur fseg : ℚ) : ℕ → ℚ → Option (List (ℚ × ℚ))
  | 0, t => if t < fend then none else some []
  | fuel + 1, t =>
    if t < fend then
      let e := min (t + fdur) fend
      let seg := glueSegment t e
      let head := if fseg < segAbs seg ∧ segAbs seg < fdur
        then innerLoopO fend fseg e fuel t
        else some [seg]
      match head, outerLoopO fend fdur fseg fuel e with
      | some h, some rest => some (h ++ rest)
      | _, _ => none
    else some []

/-- The undecorated body of `omicron_output_segments`, run with the given
amount of fuel for the cursor loops. -/
def omicron_output_segments_raw (start end_ chunk segment overlap : ℤ) (fuel : ℕ) :
    Option (List (ℚ × ℚ)) :=
  let padding : ℚ := (overlap : ℚ) / 2
  let fstart : ℚ := (start : ℚ) + padding
  let fend : ℚ := (end_ : ℚ) - padding
  let fdur : ℚ := (chunk : ℚ) - (overlap : ℚ)
  let fseg : ℚ := (segment : ℚ) - (overlap : ℚ)
  outerLoopO fend fdur fseg fuel fstart

/-- Canonical fuel: one more than the job span, which bounds the number of
outer- and inner-loop iterations whenever `chunk > segment > overlap ≥ 0`. -/
def omicronFuel (start end_ : ℤ) : ℕ := (end_ - start).toNat + 1

/-- `omicron_output_segments`, including its `@integer_segments` decorator. -/
def omicron_output_segments (start end_ chunk segment overlap : ℤ) : List (ℤ × ℤ) :=
  integer_segments
    ((omicron_output_segments_raw start end_ chunk segment overlap
      (omicronFuel start end_)).getD [])

/-- `l` is a gapless consecutive chain of nonempty rational intervals
covering exactly `[a, b)`. -/
def IsChainQ : ℚ → ℚ → List (ℚ × ℚ) → Prop
  | a, b, [] => a = b
  | a, b, s :: rest => s.1 = a ∧ a < s.2 ∧ IsChainQ s.2 b rest

/-- `l` is a gapless consecutive chain of (possibly empty) integer
intervals covering exactly `[a, b)`. -/
def IsChainZ : ℤ → ℤ → List (ℤ × ℤ) → Prop
  | a, b, [] => a = b
  | a, b, s :: rest => s.1 = a ∧ a ≤ s.2 ∧ IsChainZ s.2 b rest

/-- Membership of a rational time in the union of a list of integer
segments, each read as the half-open interval `[s.1, s.2)`. -/
def inSegs (q : ℚ) (l : List (ℤ × ℤ)) : Prop :=
  ∃ s ∈ l, (s.1 : ℚ) ≤ q ∧ q < (s.2 : ℚ)

instance (q : ℚ) (l : List (ℤ × ℤ)) : Decidable (inSegs q l) := by
  unfold inSegs; infer_instance

/-- The union of the segments of `l` is exactly `[a, b)` (integer bounds). -/
def unionIs (l : List (ℤ × ℤ)) (a b : ℤ) : Prop :=
  ∀ q : ℚ, inSegs q l ↔ ((a : ℚ) ≤ q ∧ q < (b : ℚ))

/-- The union of the segments of `l` is exactly `[a, b)` (rational bounds). -/
def unionIsQ (l : List (ℤ × ℤ)) (a b : ℚ) : Prop :=
  ∀ q : ℚ, inSegs q l ↔ (a ≤ q ∧ q < b)

theorem truncQ_mono {q r : ℚ} (h : q ≤ r) : truncQ q ≤ truncQ r := by
  unfold truncQ
  by_cases hq : 0 ≤ q
  · rw [if_pos hq, if_pos (le_trans hq h)]
    exact Int.floor_mono h
  · rw [if_neg hq]
    by_cases hr : 0 ≤ r
    · rw [if_pos hr]
      have h1 : ⌈q⌉ ≤ 0 := Int.ceil_le.mpr (by exact_mod_cast le_of_lt (lt_of_not_le hq))
      have h2 : (0 : ℤ) ≤ ⌊r⌋ := Int.le_floor.mpr (by exact_mod_cast hr)
      omega
    · rw [if_neg hr]
      exact Int.ceil_mono h

theorem truncQ_intCast (a : ℤ) : truncQ (a : ℚ) = a := by
  unfold truncQ
  by_cases h : (0 : ℚ) ≤ (a : ℚ)
  · rw [if_pos h, Int.floor_intCast]
  · rw [if_neg h, Int.ceil_intCast]

theorem isChainZ_le {l : List (ℤ × ℤ)} : ∀ {a b : ℤ}, IsChainZ a b l → a ≤ b := by
  induction l with
  | nil => intro a b h; simp only [IsChainZ] at h; omega
  | cons s rest ih =>
    intro a b h
    simp only [IsChainZ] at h
    exact le_trans h.2.1 (ih h.2.2)

theorem isChainZ_start_le {l : List (ℤ × ℤ)} :
    ∀ {a b : ℤ}, IsChainZ a b l → ∀ s ∈ l, a ≤ s.1 := by
  induction l with
  | nil => intro a b _ s hs; simp at hs
  | cons s rest ih =>
    intro a b h s' hs'
    simp only [IsChainZ] at h
    rcases List.mem_cons.mp hs' with rfl | hmem
    · omega
    · exact le_trans h.2.1 (ih h.2.2 s' hmem)

theorem isChainZ_pairwise_disjoint {l : List (ℤ × ℤ)} :
    ∀ {a b : ℤ}, IsChainZ a b l → l.Pairwise (fun s t => s.2 ≤ t.1) := by
  induction l with
  | nil => intro a b _; exact List.Pairwise.nil
  | cons s rest ih =>
    intro a b h
    simp only [IsChainZ] at h
    exact List.Pairwise.cons (fun s' hs' => isChainZ_start_le h.2.2 s' hs') (ih h.2.2)

theorem isChainZ_sorted {l : List (ℤ × ℤ)} :
    ∀ {a b : ℤ}, IsChainZ a b l → l.Pairwise (fun s t => s.1 ≤ t.1) := by
  induction l with
  | nil => intro a b _; exact List.Pairwise.nil
  | cons s rest ih =>
    intro a b h
    simp only [IsChainZ] at h
    refine List.Pairwise.cons (fun s' hs' => ?_) (ih h.2.2)
    have := isChainZ_start_le h.2.2 s' hs'
    omega

theorem isChainZ_union {l : List (ℤ × ℤ)} :
    ∀ {a b : ℤ}, IsChainZ a b l → unionIs l a b := by
  induction l with
  | nil =>
    intro a b h q
    simp only [IsChainZ] at h
    subst h
    simp only [inSegs, List.not_mem_nil, false_and, exists_false, false_iff, not_and, not_lt]
    intro h1
    exact h1
  | cons s rest ih =>
    intro a b h q
    simp only [IsChainZ] at h
    obtain ⟨h1, h2, h3⟩ := h
    have hub : s.2 ≤ b := isChainZ_le h3
    constructor
    · rintro ⟨s', hs', hq1, hq2⟩
      rcases List.mem_cons.mp hs' with rfl | hmem
      · refine ⟨by rw [← h1]; exact hq1, lt_of_lt_of_le hq2 (by exact_mod_cast hub)⟩
      · have := (ih h3 q).mp ⟨s', hmem, hq1, hq2⟩
        have hcast : (a : ℚ) ≤ (s.2 : ℚ) := by exact_mod_cast h2
        exact ⟨le_trans hcast this.1, this.2⟩
    · rintro ⟨hq1, hq2⟩
      rcases lt_or_le q (s.2 : ℚ) with hlt | hge
      · exact ⟨s, List.mem_cons_self s rest, by rw [h1]; exact hq1, hlt⟩
      · obtain ⟨s', hm, hm1, hm2⟩ := (ih h3 q).mpr ⟨hge, hq2⟩
        exact ⟨s', List.mem_cons_of_mem s hm, hm1, hm2⟩

theorem integer_segments_chain {l : List (ℚ × ℚ)} :
    ∀ {a b : ℚ}, IsChainQ a b l → IsChainZ (truncQ a) (truncQ b) (integer_segments l) := by
  induction l with
  | nil =>
    intro a b h
    simp only [IsChainQ] at h
    subst h
    simp [integer_segments, IsChainZ]
  | cons s rest ih =>
    intro a b h
    simp only [IsChainQ] at h
    obtain ⟨h1, h2, h3⟩ := h
    have hle : truncQ a ≤ truncQ s.2 := truncQ_mono (le_of_lt h2)
    simp only [integer_segments, List.map_cons] at ih ⊢
    rw [h1, glueSegmentZ, if_pos hle]
    exact ⟨rfl, hle, ih h3⟩

theorem innerLoopO_done {fend fseg e : ℚ} {fuel : ℕ} {t : ℚ} (h : ¬ t < e) :
    innerLoopO fend fseg e fuel t = some [] := by
  cases fuel <;> simp [innerLoopO, h]

theorem outerLoopO_done {fend fdur fseg : ℚ} {fuel : ℕ} {t : ℚ} (h : ¬ t < fend) :
    outerLoopO fend fdur fseg fuel t = some [] := by
  cases fuel <;> simp [outerLoopO, h]

theorem innerLoopO_chain (fend : ℚ) (k : ℕ) (hk : 1 ≤ k) :
    ∀ (fuel : ℕ) (t : ℚ) (n : ℕ), fend - t = (n : ℚ) → n ≤ fuel →
      ∃ l, innerLoopO fend (k : ℚ) fend fuel t = some l ∧ IsChainQ t fend l := by
  intro fuel
  induction fuel with
  | zero =>
    intro t n hn hfuel
    have hn0 : n = 0 := Nat.le_zero.mp hfuel
    subst hn0
    have ht : t = fend := by
      have : fend - t = 0 := by exact_mod_cast hn
      linarith
    refine ⟨[], ?_, ?_⟩
    · exact innerLoopO_done (by rw [ht]; exact lt_irrefl fend)
    · simp [IsChainQ, ht]
  | succ fuel ih =>
    intro t n hn hfuel
    by_cases hlt : t < fend
    · have hkq : (1 : ℚ) ≤ (k : ℚ) := by exact_mod_cast hk
      have hself : t < t + (k : ℚ) := by linarith
      by_cases hcase : (k : ℕ) ≤ n
      · -- a full piece of length fseg fits before fend
        have hkn : (k : ℚ) ≤ (n : ℚ) := by exact_mod_cast hcase
        have hmin : min (t + (k : ℚ)) fend = t + (k : ℚ) :=
          min_eq_left (by linarith)
        obtain ⟨l, hres, hchain⟩ := ih (t + (k : ℚ)) (n - k)
          (by push_cast [Nat.cast_sub hcase]; linarith) (by omega)
        refine ⟨(t, t + (k : ℚ)) :: l, ?_, ?_⟩
        · simp only [innerLoopO]
          rw [if_pos hlt, hmin, hres, glueSegment, if_pos (le_of_lt hself)]
          rfl
        · exact ⟨rfl, hself, hchain⟩
      · -- the final, clipped piece
        have hkn : (n : ℚ) < (k : ℚ) := by exact_mod_cast Nat.lt_of_not_le hcase
        have hclip : fend < t + (k : ℚ) := by linarith
        have hmin : min (t + (k : ℚ)) fend = fend := min_eq_right (le_of_lt hclip)
        refine ⟨[(t, fend)], ?_, ?_⟩
        · simp only [innerLoopO]
          rw [if_pos hlt, hmin, innerLoopO_done (by push_neg; linarith),
            glueSegment, if_pos (le_of_lt hlt)]
          rfl
        · exact ⟨rfl, hlt, rfl⟩
    · refine ⟨[], innerLoopO_done hlt, ?_⟩
      have ht : t = fend := by
        push_neg at hlt
        have h0 : (0 : ℚ) ≤ (n : ℚ) := by positivity
        have : (n : ℚ) = 0 := by linarith
        linarith
      simp [IsChainQ, ht]

theorem outerLoopO_chain (fend : ℚ) (d k : ℕ) (hd : 1 ≤ d) (hk : 1 ≤ k) :
    ∀ (fuel : ℕ) (t : ℚ) (n : ℕ), fend - t = (n : ℚ) → n + 1 ≤ fuel →
      ∃ l, outerLoopO fend (d : ℚ) (k : ℚ) fuel t = some l ∧ IsChainQ t fend l := by
  intro fuel
  induction fuel with
  | zero => intro t n hn hfuel; omega
  | succ fuel ih =>
    intro t n hn hfuel
    by_cases hlt : t < fend
    · have hdq : (1 : ℚ) ≤ (d : ℚ) := by exact_mod_cast hd
      have hn1 : 1 ≤ n := by
        by_contra h0
        have : n = 0 := by omega
        subst this
        simp only [Nat.cast_zero] at hn
        linarith
      have het : t < min (t + (d : ℚ)) fend := lt_min (by linarith) hlt
      have hglue : glueSegment t (min (t + (d : ℚ)) fend) = (t, min (t + (d : ℚ)) fend) :=
        if_pos (le_of_lt het)
      by_cases hcond : (k : ℚ) < segAbs (glueSegment t (min (t + (d : ℚ)) fend)) ∧
          segAbs (glueSegment t (min (t + (d : ℚ)) fend)) < (d : ℚ)
      · -- subdivision branch: the candidate span is shorter than a chunk,
        -- which forces e = fend
        have hef : min (t + (d : ℚ)) fend = fend := by
          rcases min_choice (t + (d : ℚ)) fend with hmin | hmin
          · exfalso
            rw [hglue] at hcond
            simp only [segAbs] at hcond
            rw [hmin] at hcond
            simp at hcond
          · exact hmin
        obtain ⟨l, hres, hchain⟩ := innerLoopO_chain fend k hk fuel t n hn (by omega)
        refine ⟨l, ?_, hchain⟩
        simp only [outerLoopO]
        rw [if_pos hlt, if_pos hcond, hef, hres,
          outerLoopO_done (lt_irrefl fend)]
        simp
      · -- single-segment branch
        rcases le_or_lt (t + (d : ℚ)) fend with hmin | hmin
        · have he : min (t + (d : ℚ)) fend = t + (d : ℚ) := min_eq_left hmin
          have hdn : (d : ℚ) ≤ (n : ℚ) := by linarith
          have hdn' : d ≤ n := by exact_mod_cast hdn
          obtain ⟨l, hres, hchain⟩ := ih (t + (d : ℚ)) (n - d)
            (by push_cast [Nat.cast_sub hdn']; linarith) (by omega)
          refine ⟨(t, t + (d : ℚ)) :: l, ?_, ?_⟩
          · simp only [outerLoopO]
            rw [if_pos hlt, if_neg hcond, he, hres,
              show glueSegment t (t + (d : ℚ)) = (t, t + (d : ℚ)) from if_pos (by linarith)]
            rfl
          · refine ⟨rfl, ?_, hchain⟩
            show t < t + (d : ℚ)
            linarith
        · have he : min (t + (d : ℚ)) fend = fend := min_eq_right (le_of_lt hmin)
          refine ⟨[(t, fend)], ?_, ?_⟩
          · simp only [outerLoopO]
            rw [if_pos hlt, if_neg hcond, he, outerLoopO_done (lt_irrefl fend),
              show glueSegment t fend = (t, fend) from if_pos (le_of_lt hlt)]
            rfl
          · exact ⟨rfl, hlt, rfl⟩
    · refine ⟨[], outerLoopO_done hlt, ?_⟩
      have ht : t = fend := by
        push_neg at hlt
        have h0 : (0 : ℚ) ≤ (n : ℚ) := by positivity
        have : (n : ℚ) = 0 := by linarith
        linarith
      simp [IsChainQ, ht]

theorem omicron_chain_main (start end_ chunk segment overlap : ℤ)
    (h2 : 0 ≤ overlap) (h3 : overlap < segment) (h4 : segment < chunk)
    (h5 : overlap < end_ - start) :
    ∃ l, omicron_output_segments_raw start end_ chunk segment overlap
        (omicronFuel start end_) = some l ∧
      IsChainQ ((start : ℚ) + (overlap : ℚ) / 2) ((end_ : ℚ) - (overlap : ℚ) / 2) l := by
  have hd := Int.toNat_of_nonneg (show (0 : ℤ) ≤ chunk - overlap by omega)
  have hk := Int.toNat_of_nonneg (show (0 : ℤ) ≤ segment - overlap by omega)
  have hn := Int.toNat_of_nonneg (show (0 : ℤ) ≤ end_ - start - overlap by omega)
  have hdq : (((chunk - overlap).toNat : ℕ) : ℚ) = (chunk : ℚ) - (overlap : ℚ) := by
    calc (((chunk - overlap).toNat : ℕ) : ℚ)
        = ((((chunk - overlap).toNat : ℕ) : ℤ) : ℚ) := by norm_cast
      _ = ((chunk - overlap : ℤ) : ℚ) := by rw [hd]
      _ = (chunk : ℚ) - (overlap : ℚ) := by push_cast; ring
  have hkq : (((segment - overlap).toNat : ℕ) : ℚ) = (segment : ℚ) - (overlap : ℚ) := by
    calc (((segment - overlap).toNat : ℕ) : ℚ)
        = ((((segment - overlap).toNat : ℕ) : ℤ) : ℚ) := by norm_cast
      _ = ((segment - overlap : ℤ) : ℚ) := by rw [hk]
      _ = (segment : ℚ) - (overlap : ℚ) := by push_cast; ring
  have hnq : ((end_ : ℚ) - (overlap : ℚ) / 2) - ((start : ℚ) + (overlap : ℚ) / 2) =
      (((end_ - start - overlap).toNat : ℕ) : ℚ) := by
    calc ((end_ : ℚ) - (overlap : ℚ) / 2) - ((start : ℚ) + (overlap : ℚ) / 2)
        = ((end_ - start - overlap : ℤ) : ℚ) := by push_cast; ring
      _ = ((((end_ - start - overlap).toNat : ℕ) : ℤ) : ℚ) := by rw [hn]
      _ = (((end_ - start - overlap).toNat : ℕ) : ℚ) := by norm_cast
  have hmain := outerLoopO_chain ((end_ : ℚ) - (overlap : ℚ) / 2)
    (chunk - overlap).toNat (segment - overlap).toNat
    (by omega) (by omega) (omicronFuel start end_)
    ((start : ℚ) + (overlap : ℚ) / 2) (end_ - start - overlap).toNat
    hnq (by unfold omicronFuel; omega)
  rw [hdq, hkq] at hmain
  exact hmain

/-- C2: for a degenerate span `end - start <= overlap` (with `start < end`
and `chunk > segment > overlap >= 0`), the cursor loop never executes:
`omicron_output_segments` returns the empty segment list, with the loop
completing normally (`some`) rather than failing. -/
theorem omicron_output_segments_degenerate (start end_ chunk segment overlap : ℤ)
    (h1 : start < end_) (h2 : 0 ≤ overlap) (h3 : overlap < segment)
    (h4 : segment < chunk) (hdeg : end_ - start ≤ overlap) :
    omicron_output_segments_raw start end_ chunk segment overlap
        (omicronFuel start end_) = some [] ∧
    omicron_output_segments start end_ chunk segment overlap = [] := by
  have hle : (end_ : ℚ) - (overlap : ℚ) / 2 ≤ (start : ℚ) + (overlap : ℚ) / 2 := by
    have h : ((end_ - start : ℤ) : ℚ) ≤ ((overlap : ℤ) : ℚ) := by exact_mod_cast hdeg
    push_cast at h
    linarith
  have hraw : omicron_output_segments_raw start end_ chunk segment overlap
      (omicronFuel start end_) = some [] := outerLoopO_done (not_lt.mpr hle)
  refine ⟨hraw, ?_⟩
  rw [omicron_output_segments, hraw]
  rfl

theorem omicron_output_segments_degenerate_witness :
    omicron_output_segments 0 2 6 5 3 = [] :=
  (omicron_output_segments_degenerate 0 2 6 5 3 (by decide) (by decide) (by decide)
    (by decide) (by decide)).2

/-- C5: under the preconditions `start < end` and
`chunk > segment > overlap >= 0`, both cursor loops make strictly positive
progress, so `omicron_output_segments` terminates within the canonical fuel
(the loop result is `some _`, never the fuel-exhaustion value `none`). -/
theorem omicron_output_segments_terminates (start end_ chunk segment overlap : ℤ)
    (h1 : start < end_) (h2 : 0 ≤ overlap) (h3 : overlap < segment)
    (h4 : segment < chunk) :
    ∃ l, omicron_output_segments_raw start end_ chunk segment overlap
        (omicronFuel start end_) = some l := by
  rcases le_or_lt ((end_ : ℚ) - (overlap : ℚ) / 2) ((start : ℚ) + (overlap : ℚ) / 2)
    with hle | hgt
  · exact ⟨[], outerLoopO_done (not_lt.mpr hle)⟩
  · have h5 : overlap < end_ - start := by
      have h : ((overlap : ℤ) : ℚ) < ((end_ - start : ℤ) : ℚ) := by push_cast; linarith
      exact_mod_cast h
    obtain ⟨l, hraw, _⟩ := omicron_chain_main start end_ chunk segment overlap h2 h3 h4 h5
    exact ⟨l, hraw⟩

theorem omicron_output_segments_terminates_witness :
    (omicron_output_segments_raw 0 10 5 3 1 (omicronFuel 0 10)).isSome = true := by
  obtain ⟨l, hl⟩ := omicron_output_segments_terminates 0 10 5 3 1 (by decide) (by decide)
    (by decide) (by decide)
  rw [hl]
  rfl

/-- C1 (amended): for integers `start < end`, `chunk > segment > overlap >= 0`
with `end - start > overlap`, the list returned by the (decorated)
`omicron_output_segments` is sorted by start and pairwise-disjoint, and its
union is exactly the half-open span `[int(start + overlap/2), int(end - overlap/2))`
where `int` is Python truncation toward zero (for even `overlap` these bounds
are exactly `start + overlap/2` and `end - overlap/2`). -/
theorem omicron_output_segments_partition (start end_ chunk segment overlap : ℤ)
    (h1 : start < end_) (h2 : 0 ≤ overlap) (h3 : overlap < segment)
    (h4 : segment < chunk) (h5 : overlap < end_ - start) :
    (omicron_output_segments start end_ chunk segment overlap).Pairwise
        (fun s t => s.1 ≤ t.1) ∧
    (omicron_output_segments start end_ chunk segment overlap).Pairwise
        (fun s t => s.2 ≤ t.1) ∧
    unionIs (omicron_output_segments start end_ chunk segment overlap)
      (truncQ ((start : ℚ) + (overlap : ℚ) / 2))
      (truncQ ((end_ : ℚ) - (overlap : ℚ) / 2)) := by
  obtain ⟨l, hraw, hchain⟩ :=
    omicron_chain_main start end_ chunk segment overlap h2 h3 h4 h5
  have hout : omicron_output_segments start end_ chunk segment overlap =
      integer_segments l := by
    rw [omicron_output_segments, hraw]
    rfl
  have hz := integer_segments_chain hchain
  rw [hout]
  exact ⟨isChainZ_sorted hz, isChainZ_pairwise_disjoint hz, isChainZ_union hz⟩

theorem omicron_output_segments_partition_witness :
    (omicron_output_segments 0 10 5 3 1).Pairwise (fun s t => s.1 ≤ t.1) ∧
    (omicron_output_segments 0 10 5 3 1).Pairwise (fun s t => s.2 ≤ t.1) ∧
    unionIs (omicron_output_segments 0 10 5 3 1)
      (truncQ (((0 : ℤ) : ℚ) + ((1 : ℤ) : ℚ) / 2))
      (truncQ (((10 : ℤ) : ℚ) - ((1 : ℤ) : ℚ) / 2)) :=
  omicron_output_segments_partition 0 10 5 3 1 (by decide) (by decide) (by decide)
    (by decide) (by decide)

/-- C1 counterexample: at `start=0, end=10, chunk=5, segment=3, overlap=1`,
the union of the returned (integer-coerced) segments is NOT the claimed
rational span `[start + overlap/2, end - overlap/2) = [1/2, 19/2)`: the
decorator truncates the half-integer endpoints, so the union is `[0, 9)`,
which contains `1/4` while the claimed span does not. -/
theorem omicron_output_segments_union_cex :
    ¬ unionIsQ (omicron_output_segments 0 10 5 3 1)
      (((0 : ℤ) : ℚ) + ((1 : ℤ) : ℚ) / 2) (((10 : ℤ) : ℚ) - ((1 : ℤ) : ℚ) / 2) := by
  intro hQ
  obtain ⟨l, hraw, hchain⟩ :=
    omicron_chain_main 0 10 5 3 1 (by decide) (by decide) (by decide) (by decide)
  have hout : omicron_output_segments 0 10 5 3 1 = integer_segments l := by
    rw [omicron_output_segments, hraw]
    rfl
  have hU := isChainZ_union (integer_segments_chain hchain)
  have hb1 : truncQ (((0 : ℤ) : ℚ) + ((1 : ℤ) : ℚ) / 2) = 0 := by
    have h : ((0 : ℤ) : ℚ) + ((1 : ℤ) : ℚ) / 2 = 1 / 2 := by push_cast; ring
    rw [h, truncQ, if_pos (by norm_num), Int.floor_eq_iff]
    constructor <;> norm_num
  have hb2 : truncQ (((10 : ℤ) : ℚ) - ((1 : ℤ) : ℚ) / 2) = 9 := by
    have h : ((10 : ℤ) : ℚ) - ((1 : ℤ) : ℚ) / 2 = 19 / 2 := by push_cast; ring
    rw [h, truncQ, if_pos (by norm_num), Int.floor_eq_iff]
    constructor <;> norm_num
  rw [hb1, hb2] at hU
  have hmem : inSegs (1 / 4) (omicron_output_segments 0 10 5 3 1) := by
    rw [hout]
    exact (hU (1 / 4)).mpr ⟨by norm_num, by norm_num⟩
  have hcontra := (hQ (1 / 4)).mp hmem
  have : ((0 : ℤ) : ℚ) + ((1 : ℤ) : ℚ) / 2 = 1 / 2 := by push_cast; ring
  rw [this] at hcontra
  norm_num at hcontra

theorem truncQ_of_den_one {q : ℚ} (h : q.den = 1) : truncQ q = q.num := by
  conv_lhs => rw [← Rat.coe_int_num_of_den_eq_one h]
  rw [truncQ_intCast]

/-- C3 counterexample: `write_segments` DOES truncate on its own: for the
caller-supplied interval `(9/5, 5/2)` the `%d` conversion writes the pair
`(1, 2)`, not the endpoints unchanged. -/
theorem write_segments_truncates_cex :
    written_endpoints [((9 : ℚ) / 5, (5 : ℚ) / 2)] = [((1 : ℚ), (2 : ℚ))] ∧
    written_endpoints [((9 : ℚ) / 5, (5 : ℚ) / 2)] ≠ [((9 : ℚ) / 5, (5 : ℚ) / 2)] := by
  have h1 : truncQ ((9 : ℚ) / 5) = 1 := by
    rw [truncQ, if_pos (by norm_num), Int.floor_eq_iff]
    constructor <;> norm_num
  have h2 : truncQ ((5 : ℚ) / 2) = 2 := by
    rw [truncQ, if_pos (by norm_num), Int.floor_eq_iff]
    constructor <;> norm_num
  constructor
  · simp only [written_endpoints, List.map_cons, List.map_nil, h1, h2]
    norm_num
  · simp only [written_endpoints, List.map_cons, List.map_nil, h1, h2]
    intro hcontra
    have := List.head_eq_of_cons_eq hcontra
    rw [Prod.ext_iff] at this
    have h9 : ((1 : ℤ) : ℚ) = 9 / 5 := this.1
    norm_num at h9

/-- C3 (amended): `write_segments` serializes each interval as the line
`"<start> <end>"` using `%d`, which truncates fractional endpoints toward
zero; when the caller has already coerced every endpoint to an integer
(denominator 1) the written values are exactly the given endpoints. -/
theorem write_segments_integer_exact (l : List (ℚ × ℚ))
    (h : ∀ s ∈ l, s.1.den = 1 ∧ s.2.den = 1) :
    written_endpoints l = l ∧
    write_segments l = l.map (fun s => toString s.1.num ++ " " ++ toString s.2.num) := by
  constructor
  · calc written_endpoints l = l.map (fun s => s) := by
          apply List.map_congr_left
          intro s hs
          rw [truncQ_of_den_one (h s hs).1, truncQ_of_den_one (h s hs).2,
            Rat.coe_int_num_of_den_eq_one (h s hs).1,
            Rat.coe_int_num_of_den_eq_one (h s hs).2]
      _ = l := List.map_id' l
  · apply List.map_congr_left
    intro s hs
    rw [truncQ_of_den_one (h s hs).1, truncQ_of_den_one (h s hs).2]

theorem write_segments_integer_exact_witness :
    written_endpoints [((1 : ℚ), (3 : ℚ)), ((4 : ℚ), (7 : ℚ))] =
      [((1 : ℚ), (3 : ℚ)), ((4 : ℚ), (7 : ℚ))] ∧
    write_segments [((1 : ℚ), (3 : ℚ)), ((4 : ℚ), (7 : ℚ))] =
      [((1 : ℚ), (3 : ℚ)), ((4 : ℚ), (7 : ℚ))].map
        (fun s => toString s.1.num ++ " " ++ toString s.2.num) :=
  write_segments_integer_exact [((1 : ℚ), (3 : ℚ)), ((4 : ℚ), (7 : ℚ))] (by decide)

/-- C4: wrapping any interval-producing function with `integer_segments`
yields the same number of intervals, in the same order, with endpoints the
integer truncations of the originals; sortedness by start and pairwise
disjointness are preserved. -/
theorem integer_segments_preserves {α : Type} (f : α → List (ℚ × ℚ)) (x : α)
    (hne : ∀ s ∈ f x, s.1 < s.2)
    (hsorted : (f x).Pairwise (fun s t => s.1 ≤ t.1))
    (hdisj : (f x).Pairwise (fun s t => s.2 ≤ t.1 ∨ t.2 ≤ s.1)) :
    integer_segments_wrap f x = (f x).map (fun s => (truncQ s.1, truncQ s.2)) ∧
    (integer_segments_wrap f x).length = (f x).length ∧
    (integer_segments_wrap f x).Pairwise (fun s t => s.1 ≤ t.1) ∧
    (integer_segments_wrap f x).Pairwise (fun s t => s.2 ≤ t.1 ∨ t.2 ≤ s.1) := by
  have hmap : integer_segments_wrap f x =
      (f x).map (fun s => (truncQ s.1, truncQ s.2)) := by
    unfold integer_segments_wrap integer_segments
    apply List.map_congr_left
    intro s hs
    simp only [glueSegmentZ]
    exact if_pos (truncQ_mono (le_of_lt (hne s hs)))
  refine ⟨hmap, ?_, ?_, ?_⟩
  · rw [hmap, List.length_map]
  · rw [hmap, List.pairwise_map]
    exact hsorted.imp (fun hab => truncQ_mono hab)
  · rw [hmap, List.pairwise_map]
    exact hdisj.imp
      (fun hab => hab.elim (fun hl => Or.inl (truncQ_mono hl))
        (fun hr => Or.inr (truncQ_mono hr)))

theorem integer_segments_preserves_witness :
    integer_segments_wrap (fun _ : Unit => [((0 : ℚ), (1 : ℚ)), ((2 : ℚ), (3 : ℚ))]) () =
      [((0 : ℚ), (1 : ℚ)), ((2 : ℚ), (3 : ℚ))].map (fun s => (truncQ s.1, truncQ s.2)) ∧
    (integer_segments_wrap
        (fun _ : Unit => [((0 : ℚ), (1 : ℚ)), ((2 : ℚ), (3 : ℚ))]) ()).length =
      [((0 : ℚ), (1 : ℚ)), ((2 : ℚ), (3 : ℚ))].length ∧
    (integer_segments_wrap
        (fun _ : Unit => [((0 : ℚ), (1 : ℚ)), ((2 : ℚ), (3 : ℚ))]) ()).Pairwise
      (fun s t => s.1 ≤ t.1) ∧
    (integer_segments_wrap
        (fun _ : Unit => [((0 : ℚ), (1 : ℚ)), ((2 : ℚ), (3 : ℚ))]) ()).Pairwise
      (fun s t => s.2 ≤ t.1 ∨ t.2 ≤ s.1) :=
  integer_segments_preserves (fun _ : Unit => [((0 : ℚ), (1 : ℚ)), ((2 : ℚ), (3 : ℚ))]) ()
    (by decide) (by decide) (by decide)

/-- C10: `integer_segments` maps intervals one-to-one (never filters), and
for the fractional interval `[6/5, 9/5)`, which lies inside a single integer
cell, the wrapped function returns the zero-length interval `(1, 1)`: the
`TimeInterval` invariant `end > start` is not preserved by the wrapper. -/
theorem integer_segments_zero_length :
    (∀ l : List (ℚ × ℚ), (integer_segments l).length = l.length) ∧
    integer_segments_wrap (fun _ : Unit => [((6 : ℚ) / 5, (9 : ℚ) / 5)]) () =
      [((1 : ℤ), (1 : ℤ))] := by
  constructor
  · intro l
    simp [integer_segments]
  · have h1 : truncQ ((6 : ℚ) / 5) = 1 := by
      rw [truncQ, if_pos (by norm_num), Int.floor_eq_iff]
      constructor <;> norm_num
    have h2 : truncQ ((9 : ℚ) / 5) = 1 := by
      rw [truncQ, if_pos (by norm_num), Int.floor_eq_iff]
      constructor <;> norm_num
    simp [integer_segments_wrap, integer_segments, h1, h2, glueSegmentZ]

/-!
The second part models the batch-job lifecycle layer (`omicron/condor.py`).
That module is not under `src/` — only its tests are — so the definitions
below are modelled from the specification (sections 4.3, 4.4 and 4.6),
with the test expectations of `src/omicron/tests/test_condor.py` as
concrete anchors.  Text is modelled as lists of characters.
-/

/-- A piece of text (a line of a file, or a process output). -/
abbrev Line := List Char

/-- `startsL p l`: the character list `l` begins with `p`. -/
def startsL : Line → Line → Bool
  | [], _ => true
  | _ :: _, [] => false
  | p :: ps, c :: cs => p == c && startsL ps cs

/-- `endsL p l`: the character list `l` ends with `p`. -/
def endsL (p l : Line) : Bool := startsL p.reverse l.reverse

theorem startsL_self_append (p x : Line) : startsL p (p ++ x) = true := by
  induction p with
  | nil => rfl
  | cons c cs ih => simp [startsL, ih]

theorem startsL_append_right {p l : Line} (h : startsL p l = true) (x : Line) :
    startsL p (l ++ x) = true := by
  induction p generalizing l with
  | nil => rfl
  | cons c cs ih =>
    cases l with
    | nil => simp [startsL] at h
    | cons a as =>
      simp only [startsL, Bool.and_eq_true, beq_iff_eq] at h
      simp [startsL, h.1, ih h.2]

theorem endsL_self_append (p x : Line) : endsL p (x ++ p) = true := by
  rw [endsL, List.reverse_append]
  exact startsL_self_append p.reverse x.reverse

/-- Two head-distinct patterns cannot both start the same text. -/
theorem startsL_head_ne {c1 c2 : Char} {p1 p2 l : Line} (hne : c1 ≠ c2)
    (h1 : startsL (c1 :: p1) l = true) : startsL (c2 :: p2) l = false := by
  cases l with
  | nil => rfl
  | cons a as =>
    simp only [startsL, Bool.and_eq_true, beq_iff_eq] at h1
    have hba : (c2 == a) = false :=
      beq_eq_false_iff_ne.mpr (fun h => hne (h1.1.trans h.symm))
    simp [startsL, hba]

/-- ASCII digit test. -/
def isDigitC (c : Char) : Bool := ('0' ≤ c) && (c ≤ '9')

/-- Longest digit run at the head of the text, with the remainder. -/
def takeDigits : Line → Line × Line
  | [] => ([], [])
  | c :: cs =>
    if isDigitC c then
      let p := takeDigits cs
      (c :: p.1, p.2)
    else ([], c :: cs)

/-- Decimal value of a digit run. -/
def digitsVal (ds : Line) : ℕ := ds.foldl (fun a c => a * 10 + (c.toNat - 48)) 0

/-- Expect the literal `p` at the head of the text; return the remainder. -/
def dropLit : Line → Line → Option Line
  | [], l => some l
  | _ :: _, [] => none
  | p :: ps, c :: cs => if p == c then dropLit ps cs else none

/-- The fixed part of the scheduler's submission message. -/
def clusterLit : Line := (" job(s) submitted to cluster ").data

/-- Match `"<N> job(s) submitted to cluster <ClusterID>"` at the head of the
text, returning the cluster id. -/
def matchAt (l : Line) : Option ℕ :=
  let p1 := takeDigits l
  if p1.1.isEmpty then none
  else
    match dropLit clusterLit p1.2 with
    | none => none
    | some r2 =>
      let p2 := takeDigits r2
      if p2.1.isEmpty then none else some (digitsVal p2.1)

/-- Scan every suffix of the output for the submission pattern. -/
def scanPattern : Line → Option ℕ
  | [] => none
  | c :: cs =>
    match matchAt (c :: cs) with
    | some cid => some cid
    | none => scanPattern cs

/-- The documented error-message head of a failed cluster-id extraction. -/
def failMsgHead : Line := ("Failed to extract DAG cluster ID").data

/-- Modelled from the spec: `submit_dag` of `omicron/condor.py` (the module
is not under src/).  It captures the submission executable's standard
output, scans it for the pattern `"<N> job(s) submitted to cluster
<ClusterID>"` and returns `ClusterID`; if the pattern is absent it fails
with a ParseError whose message is prefixed
`"Failed to extract DAG cluster ID"`. -/
def submit_dag (out : Line) : Except Line ℕ :=
  match scanPattern out with
  | some cid => Except.ok cid
  | none => Except.error (failMsgHead ++ (" from ").data ++ out)

/-- C6: `submit_dag` returns the cluster id parsed from the output when the
pattern `"<N> job(s) submitted to cluster <ClusterID>"` occurs (e.g. 12345
for `"1 job(s) submitted to cluster 12345"`), and fails with a ParseError
whose message starts with `"Failed to extract DAG cluster ID"` whenever the
pattern is absent. -/
theorem submit_dag_cluster_id :
    submit_dag ("1 job(s) submitted to cluster 12345").data = Except.ok 12345 ∧
    (∀ out cid, scanPattern out = some cid → submit_dag out = Except.ok cid) ∧
    (∀ out, scanPattern out = none →
      submit_dag out = Except.error (failMsgHead ++ (" from ").data ++ out) ∧
      startsL failMsgHead (failMsgHead ++ (" from ").data ++ out) = true) := by
  refine ⟨?_, ?_, ?_⟩
  · have h : scanPattern ("1 job(s) submitted to cluster 12345").data = some 12345 := by
      decide
    simp [submit_dag, h]
  · intro out cid h
    simp [submit_dag, h]
  · intro out h
    refine ⟨by simp [submit_dag, h], ?_⟩
    rw [List.append_assoc]
    exact startsL_self_append failMsgHead _

theorem submit_dag_cluster_id_witness :
    scanPattern ("Something else").data = none ∧
    submit_dag ("Something else").data =
      Except.error (failMsgHead ++ (" from ").data ++ ("Something else").data) ∧
    startsL failMsgHead
      (failMsgHead ++ (" from ").data ++ ("Something else").data) = true :=
  ⟨by decide, submit_dag_cluster_id.2.2 ("Something else").data (by decide)⟩

/-- Modelled from the spec: a scheduler `JobRecord` (`omicron/condor.py` is
not under src/) — a mapping from attribute names to values. -/
abbrev JobRec := List (String × ℤ)

/-- A job satisfies every given equality filter. -/
def matchesConstraints (filters : List (String × ℤ)) (job : JobRec) : Bool :=
  filters.all (fun f => job.lookup f.1 == some f.2)

/-- Modelled from the spec: `find_jobs(filters)` of `omicron/condor.py` (not
under src/): returns every scheduler job whose attributes satisfy all the
equality filters; an empty filter set returns all known jobs. -/
def find_jobs (jobs : List JobRec) (filters : List (String × ℤ)) : List JobRec :=
  jobs.filter (fun j => matchesConstraints filters j)

/-- The error outcomes of the unique-lookup query. -/
inductive CondorError where
  | notFound (msg : Line)
  | ambiguous (msg : Line)
deriving DecidableEq

/-- The documented message of a zero-match unique lookup. -/
def noJobsMsg : Line := ("No jobs found matching filters").data

/-- The documented message of a multi-match unique lookup. -/
def multiJobsMsg : Line := ("Multiple jobs found matching filters").data

/-- Modelled from the spec: `find_job(filters)` of `omicron/condor.py` (not
under src/): same matching semantics as `find_jobs`, but requires exactly
one match; fails with NotFoundError (`"No jobs found..."`) on zero matches
and AmbiguousResultError (`"Multiple jobs found..."`) on more than one. -/
def find_job (jobs : List JobRec) (filters : List (String × ℤ)) :
    Except CondorError JobRec :=
  match find_jobs jobs filters with
  | [] => Except.error (CondorError.notFound noJobsMsg)
  | [j] => Except.ok j
  | _ => Except.error (CondorError.ambiguous multiJobsMsg)

/-- C7: `find_job` returns the unique matching JobRecord when exactly one
job matches, fails with a NotFoundError whose message starts with
`"No jobs found"` on zero matches, and with an AmbiguousResultError whose
message starts with `"Multiple jobs found"` on two or more matches. -/
theorem find_job_semantics (jobs : List JobRec) (filters : List (String × ℤ)) :
    (∀ j, find_jobs jobs filters = [j] → find_job jobs filters = Except.ok j) ∧
    (find_jobs jobs filters = [] →
      find_job jobs filters = Except.error (CondorError.notFound noJobsMsg) ∧
      startsL ("No jobs found").data noJobsMsg = true) ∧
    (2 ≤ (find_jobs jobs filters).length →
      find_job jobs filters = Except.error (CondorError.ambiguous multiJobsMsg) ∧
      startsL ("Multiple jobs found").data multiJobsMsg = true) := by
  refine ⟨?_, ?_, ?_⟩
  · intro j hj
    rw [find_job, hj]
  · intro h
    exact ⟨by rw [find_job, h], by decide⟩
  · intro h
    refine ⟨?_, by decide⟩
    rw [find_job]
    rcases hl : find_jobs jobs filters with _ | ⟨a, _ | ⟨b, tl⟩⟩
    · rw [hl] at h
      simp at h
    · rw [hl] at h
      simp at h
    · rfl

theorem find_job_semantics_witness :
    find_job [[("ClusterId", (1 : ℤ))], [("ClusterId", (2 : ℤ))]]
        [("ClusterId", (1 : ℤ))] = Except.ok [("ClusterId", (1 : ℤ))] ∧
    (find_job [[("ClusterId", (1 : ℤ))], [("ClusterId", (2 : ℤ))]]
        [("ClusterId", (3 : ℤ))] = Except.error (CondorError.notFound noJobsMsg) ∧
      startsL ("No jobs found").data noJobsMsg = true) ∧
    (find_job [[("ClusterId", (1 : ℤ))], [("ClusterId", (2 : ℤ))]] [] =
        Except.error (CondorError.ambiguous multiJobsMsg) ∧
      startsL ("Multiple jobs found").data multiJobsMsg = true) :=
  ⟨(find_job_semantics [[("ClusterId", (1 : ℤ))], [("ClusterId", (2 : ℤ))]]
      [("ClusterId", (1 : ℤ))]).1 [("ClusterId", (1 : ℤ))] (by decide),
   (find_job_semantics [[("ClusterId", (1 : ℤ))], [("ClusterId", (2 : ℤ))]]
      [("ClusterId", (3 : ℤ))]).2.1 (by decide),
   (find_job_semantics [[("ClusterId", (1 : ℤ))], [("ClusterId", (2 : ℤ))]]
      []).2.2 (by decide)⟩

/-- The head of an `arguments` directive line: `arguments = "`. -/
def argTag : Line := ("arguments = " ++ "\"").data

/-- The head of a `Requirements` directive line. -/
def reqKey : Line := ("Requirements").data

/-- The head of the inserted container-image directive. -/
def singTag : Line := ("+SingularityImage").data

/-- The boolean-expression continuation marker terminating a clause line. -/
def contMark : Line := (" && " ++ "\\").data

/-- `contB l`: the clause line `l` is continued on the next physical line. -/
def contB (l : Line) : Bool := endsL contMark l

/-- The continuation indent aligning under `Requirements = `. -/
def indent15 : Line := List.replicate 15 ' '

/-- The final continuation line carrying the singularity requirement. -/
def hasSingLine : Line := indent15 ++ ("HasSingularity").data

/-- Re-terminate a clause line with the continuation marker. -/
def withMark (l : Line) : Line := l ++ contMark

/-- Modelled from the spec: the argument override of
`OmicronProcessJob.write_sub_file` (`omicron/condor.py` is not under src/):
prepend the override `c`, with exactly one leading space, in front of the
existing `arguments` directive's current value. -/
def rewriteArgs (c : Line) (l : Line) : Line :=
  if startsL argTag l then argTag ++ (' ' :: c) ++ l.drop argTag.length else l

/-- Modelled from the spec: walk the physical lines of the `Requirements`
boolean expression; re-terminate the final clause line with the
continuation marker and append a final continuation line ending in
`HasSingularity`, leaving every earlier clause verbatim. -/
def extendClause (l : Line) : List Line → List Line
  | [] => if contB l then [l, hasSingLine] else [withMark l, hasSingLine]
  | l2 :: ls =>
    if contB l then l :: extendClause l2 ls
    else withMark l :: hasSingLine :: l2 :: ls

/-- Find the `Requirements` directive and extend its clause chain. -/
def mapReq : List Line → List Line
  | [] => []
  | l :: ls => if startsL reqKey l then extendClause l ls else l :: mapReq ls

/-- Does any line open a `Requirements` directive? -/
def hasReqLine (d : List Line) : Bool := d.any (fun l => startsL reqKey l)

/-- The directive created when no `Requirements` clause exists. -/
def reqSingLine : Line := ("Requirements = HasSingularity").data

/-- The inserted `+SingularityImage = <path>` directive. -/
def singLine (img : Line) : Line := ("+SingularityImage = ").data ++ img

/-- Modelled from the spec: the container-image patch of
`OmicronProcessJob.write_sub_file`: insert `+SingularityImage = <path>` as
the first directive and ensure the `Requirements` expression includes a
`HasSingularity` clause (creating `Requirements = HasSingularity` when the
directive is absent). -/
def patchSingularity (img : Line) (d : List Line) : List Line :=
  if hasReqLine d then singLine img :: mapReq d
  else singLine img :: reqSingLine :: d

/-- Modelled from the spec: `OmicronProcessJob.write_sub_file` of
`omicron/condor.py` (not under src/), acting on the generated submission
descriptor, given the optional command-argument override and the optional
container-image path.  The descriptor is the ordered list of the file's
physical lines. -/
def write_sub_file (cmd : Option Line) (img : Option Line) (d : List Line) :
    List Line :=
  let d1 := match cmd with
    | none => d
    | some c => d.map (rewriteArgs c)
  match img with
  | none => d1
  | some i => patchSingularity i d1

/-- The untouched residue of a descriptor: its physical lines with every
line of a targeted directive removed — the `arguments` line, the
`Requirements` clause (its opening line and, following the continuation
markers, its continuation lines), and any `+SingularityImage` line.  The
boolean state records whether the previous line continued a clause. -/
def untouchedAux : Bool → List Line → List Line
  | _, [] => []
  | true, l :: ls => untouchedAux (contB l) ls
  | false, l :: ls =>
    if startsL reqKey l then untouchedAux (contB l) ls
    else if startsL argTag l || startsL singTag l then untouchedAux false ls
    else l :: untouchedAux false ls

/-- The lines of a descriptor not belonging to any targeted directive. -/
def untouched (d : List Line) : List Line := untouchedAux false d

/-- The descriptor grammar of the spec: a continuation line (one following
a clause line terminated by `" && \"`) is indented to align under
`Requirements = `.  Only the `Requirements` directive uses continuations. -/
def wfAux : Bool → List Line → Bool
  | _, [] => true
  | true, l :: ls => startsL indent15 l && wfAux (contB l) ls
  | false, l :: ls =>
    if startsL reqKey l then wfAux (contB l) ls else wfAux false ls

/-- A descriptor following the continuation convention. -/
def wfDescriptor (d : List Line) : Bool := wfAux false d

/-- The `sub_no_reqs` test descriptor of `test_condor.py`. -/
def subNoReqs : List Line :=
  [[], ("universe = vanilla").data, ("executable = /path/to/omicron").data,
   ("arguments = " ++ "\"some command\"").data]

/-- The `sub_one_req` test descriptor of `test_condor.py`. -/
def subOneReq : List Line :=
  subNoReqs ++ [[], ("Requirements = TARGET.UidDomain == " ++ "\"cs.wisc.edu\"").data]

theorem contB_withMark (l : Line) : contB (withMark l) = true :=
  endsL_self_append contMark l

theorem contB_hasSingLine : contB hasSingLine = false := by decide

theorem contB_reqSingLine : contB reqSingLine = false := by decide

theorem startsL_reqKey_withMark {l : Line} (h : startsL reqKey l = true) :
    startsL reqKey (withMark l) = true :=
  startsL_append_right h contMark

theorem untouchedAux_true_extendClause :
    ∀ (ls : List Line) (l : Line),
      untouchedAux true (extendClause l ls) = untouchedAux true (l :: ls) := by
  intro ls
  induction ls with
  | nil =>
    intro l
    by_cases hc : contB l
    · simp [extendClause, hc, untouchedAux, contB_hasSingLine]
    · simp [extendClause, hc, untouchedAux, contB_hasSingLine, contB_withMark]
  | cons l2 ls2 ih =>
    intro l
    by_cases hc : contB l
    · simp only [extendClause, if_pos hc, untouchedAux, hc, ih l2]
    · simp [extendClause, hc, untouchedAux, contB_withMark, contB_hasSingLine]

theorem untouchedAux_mapReq :
    ∀ d : List Line, untouchedAux false (mapReq d) = untouchedAux false d := by
  intro d
  induction d with
  | nil => rfl
  | cons l ls ih =>
    by_cases hr : startsL reqKey l
    · simp only [mapReq, if_pos hr]
      cases ls with
      | nil =>
        by_cases hc : contB l
        · simp [extendClause, hc, untouchedAux, hr, contB_hasSingLine]
        · simp [extendClause, hc, untouchedAux, hr, contB_withMark, contB_hasSingLine,
            startsL_reqKey_withMark hr]
      | cons l2 ls2 =>
        by_cases hc : contB l
        · simp only [extendClause, if_pos hc, untouchedAux, if_pos hr, hc]
          exact untouchedAux_true_extendClause ls2 l2
        · simp [extendClause, hc, untouchedAux, hr, contB_withMark, contB_hasSingLine,
            startsL_reqKey_withMark hr]
    · simp only [mapReq, if_neg hr]
      by_cases ht : (startsL argTag l || startsL singTag l) = true
      · simp [untouchedAux, hr, ht, ih]
      · simp [untouchedAux, hr, ht, ih]

theorem startsL_singTag_singLine (img : Line) : startsL singTag (singLine img) = true :=
  startsL_append_right (p := singTag) (l := ("+SingularityImage = ").data)
    (by decide) img

theorem startsL_reqKey_singLine (img : Line) : startsL reqKey (singLine img) = false := by
  have e1 : singTag = '+' :: ("SingularityImage").data := by decide
  have e2 : reqKey = 'R' :: ("equirements").data := by decide
  have h1 := startsL_singTag_singLine img
  rw [e1] at h1
  rw [e2]
  exact startsL_head_ne (by decide) h1

theorem untouched_patchSingularity (img : Line) (d : List Line) :
    untouched (patchSingularity img d) = untouched d := by
  have hr := startsL_reqKey_singLine img
  have hs := startsL_singTag_singLine img
  unfold patchSingularity untouched
  by_cases hq : hasReqLine d = true
  · rw [if_pos hq]
    have step : untouchedAux false (singLine img :: mapReq d) =
        untouchedAux false (mapReq d) := by
      simp [untouchedAux, hr, hs]
    rw [step]
    exact untouchedAux_mapReq d
  · rw [if_neg hq]
    have hreq : startsL reqKey reqSingLine = true := by decide
    have step : untouchedAux false (singLine img :: reqSingLine :: d) =
        untouchedAux false d := by
      simp [untouchedAux, hr, hs, hreq, contB_reqSingLine]
    rw [step]

theorem startsL_argTag_rewriteArgs {l : Line} (c : Line) (h : startsL argTag l = true) :
    startsL argTag (rewriteArgs c l) = true := by
  rw [rewriteArgs, if_pos h, List.append_assoc]
  exact startsL_self_append argTag _

theorem startsL_argTag_of_reqKey {l : Line} (h : startsL reqKey l = true) :
    startsL argTag l = false := by
  have e1 : reqKey = 'R' :: ("equirements").data := by decide
  have e2 : argTag = 'a' :: ("rguments = " ++ "\"").data := by decide
  rw [e1] at h
  rw [e2]
  exact startsL_head_ne (by decide) h

theorem startsL_argTag_of_indent {l : Line} (h : startsL indent15 l = true) :
    startsL argTag l = false := by
  have e1 : indent15 = ' ' :: List.replicate 14 ' ' := by decide
  have e2 : argTag = 'a' :: ("rguments = " ++ "\"").data := by decide
  rw [e1] at h
  rw [e2]
  exact startsL_head_ne (by decide) h

theorem startsL_reqKey_of_argTag {l : Line} (h : startsL argTag l = true) :
    startsL reqKey l = false := by
  have e1 : argTag = 'a' :: ("rguments = " ++ "\"").data := by decide
  have e2 : reqKey = 'R' :: ("equirements").data := by decide
  rw [e1] at h
  rw [e2]
  exact startsL_head_ne (by decide) h

theorem untouchedAux_map_rewriteArgs (c : Line) :
    ∀ (d : List Line) (b : Bool), wfAux b d = true →
      untouchedAux b (d.map (rewriteArgs c)) = untouchedAux b d := by
  intro d
  induction d with
  | nil => intro b _; rfl
  | cons l ls ih =>
    intro b hwf
    cases b with
    | true =>
      simp only [wfAux, Bool.and_eq_true] at hwf
      have hna : startsL argTag l = false := startsL_argTag_of_indent hwf.1
      have hl : rewriteArgs c l = l := by rw [rewriteArgs, hna]; rfl
      simp only [List.map_cons, hl, untouchedAux]
      exact ih (contB l) hwf.2
    | false =>
      by_cases hr : startsL reqKey l = true
      · have hna : startsL argTag l = false := startsL_argTag_of_reqKey hr
        have hl : rewriteArgs c l = l := by rw [rewriteArgs, hna]; rfl
        have hwf2 : wfAux (contB l) ls = true := by
          rw [wfAux, if_pos hr] at hwf
          exact hwf
        simp only [List.map_cons, hl, untouchedAux, if_pos hr]
        exact ih (contB l) hwf2
      · have hwf2 : wfAux false ls = true := by
          rw [wfAux, if_neg hr] at hwf
          exact hwf
        by_cases ha : startsL argTag l = true
        · have hfa := startsL_argTag_rewriteArgs c ha
          have hfr : startsL reqKey (rewriteArgs c l) = false :=
            startsL_reqKey_of_argTag hfa
          simp only [List.map_cons, untouchedAux, hfr, hfa, hr, ha, Bool.true_or,
            Bool.false_eq_true, if_false, if_true]
          exact ih false hwf2
        · have hl : rewriteArgs c l = l := by rw [rewriteArgs, if_neg ha]
          simp only [List.map_cons, hl, untouchedAux]
          by_cases hs : startsL singTag l = true
          · simp only [hr, ha, hs, Bool.or_true, Bool.false_eq_true, if_false, if_true]
            exact ih false hwf2
          · simp only [hr, ha, hs, Bool.or_false, Bool.false_eq_true, if_false]
            rw [ih false hwf2]

/-- C8: applying the patcher with neither an argument override nor a
container-image path leaves the descriptor unchanged; and whenever any
override is applied to a descriptor following the continuation convention,
every line outside the targeted directives (`arguments`, the `Requirements`
clause, the inserted `+SingularityImage`) is preserved unchanged and in its
original order. -/
theorem write_sub_file_frame (cmd img : Option Line) (d : List Line) :
    write_sub_file none none d = d ∧
    (wfDescriptor d = true →
      untouched (write_sub_file cmd img d) = untouched d) := by
  refine ⟨rfl, ?_⟩
  intro hwf
  cases cmd with
  | none =>
    cases img with
    | none => rfl
    | some i => exact untouched_patchSingularity i d
  | some c =>
    cases img with
    | none => exact untouchedAux_map_rewriteArgs c d false hwf
    | some i =>
      have e : write_sub_file (some c) (some i) d =
          patchSingularity i (d.map (rewriteArgs c)) := rfl
      rw [e, untouched_patchSingularity]
      exact untouchedAux_map_rewriteArgs c d false hwf

theorem write_sub_file_frame_witness :
    wfDescriptor subOneReq = true ∧
    write_sub_file none none subOneReq = subOneReq ∧
    untouched (write_sub_file (some ("new arguments").data)
      (some ("image.sif").data) subOneReq) = untouched subOneReq :=
  ⟨by decide,
   (write_sub_file_frame (some ("new arguments").data)
     (some ("image.sif").data) subOneReq).1,
   (write_sub_file_frame (some ("new arguments").data)
     (some ("image.sif").data) subOneReq).2 (by decide)⟩

/-- C9: the argument override rewrites the existing `arguments` directive
by prepending the override with exactly one leading space in front of the
directive's pre-existing value rather than replacing it: the override
`"new arguments"` applied to `arguments = "some command"` yields
`arguments = " new argumentssome command"`. -/
theorem write_sub_file_args_override :
    (∀ (c tl : Line), rewriteArgs c (argTag ++ tl) = argTag ++ (' ' :: c) ++ tl) ∧
    write_sub_file (some ("new arguments").data) none subNoReqs =
      [[], ("universe = vanilla").data, ("executable = /path/to/omicron").data,
       ("arguments = " ++ "\" new argumentssome command\"").data] := by
  constructor
  · intro c tl
    rw [rewriteArgs, if_pos (startsL_self_append argTag tl), List.drop_left]
  · decide
